import Mathlib

/-!
Shallow embedding of the onode-manager core of
`src/crimson/os/seastore/onode_manager/staged-fltree/fltree_onode_manager.cc`.

The manager functions (`contains_onode`, `get_onode`, `get_or_create_onode`,
`get_or_create_onodes`, `write_dirty`, `erase_onode`, `list_onodes`) are
translated from that source file.  The collaborators that the source file
uses but whose code is not part of this repository snapshot — the ordered
tree (`Btree`), the key type `ghobject_t`, the constant
`key_view_t::MAX_NS_OID_LENGTH`, and the `FLTreeOnode` accessors
(`mark_delete`, `get_mutable_layout`, `populate_recorder`) — are modelled
from the specification's interface contract (spec §3, §4, §6).

All asynchronous futures of the source collapse to plain values: the spec's
concurrency model (§5) is single-threaded-cooperative with strictly
sequential batch processing, so each operation is a pure function of the
transaction-visible state (the tree and the pending write set), with
fallible operations returning `Except`.
-/

/-- Modelled from the spec: the generalized object identifier, "a composite,
totally-ordered key (collection/shard, namespace, name, hash, snapshot,
generation)" (spec §3).  Byte strings are lists of bytes; the total order is
lexicographic over the components, consistent with tree iteration order. -/
structure ghobject_t where
  shard : Nat
  nspace : List Nat
  name : List Nat
  hash : Nat
  snap : Nat
  gen : Nat
  deriving DecidableEq

/-- The composite key of an identifier, used to derive its total order. -/
def ghobject_t.toKey (g : ghobject_t) :
    Lex (Nat × Lex (List Nat × Lex (List Nat × Lex (Nat × Lex (Nat × Nat))))) :=
  toLex (g.shard, toLex (g.nspace, toLex (g.name, toLex (g.hash, toLex (g.snap, g.gen)))))

theorem ghobject_t.toKey_inj : Function.Injective ghobject_t.toKey := by
  intro a b h
  cases a; cases b
  simpa [ghobject_t.toKey, Prod.ext_iff] using h

instance : LinearOrder ghobject_t := LinearOrder.lift' ghobject_t.toKey ghobject_t.toKey_inj

/-- Modelled from the spec: `key_view_t::MAX_NS_OID_LENGTH`, "the maximum
supported by the key encoding" (spec §7) — a fixed constant bounding the
combined byte length of namespace and name. -/
def MAX_NS_OID_LENGTH : Nat := 2048

/-- Modelled from the spec: `onode_layout_t`, "a fixed-size metadata structure
stored as the tree value"; "created with a zeroed/default value on first
insertion" (spec §3). -/
structure onode_layout_t where
  data : Nat := 0
  deriving DecidableEq

/-- Dirty-state tag of an onode (spec §3): `STABLE` / `MUTATED` / `DELETED`. -/
inductive status_t where
  | STABLE
  | MUTATED
  | DELETED
  deriving DecidableEq

/-- In-memory onode handle: the tree position it wraps is represented by its
key and current payload, plus the lifecycle status (spec §3). -/
structure FLTreeOnode where
  hoid : ghobject_t
  layout : onode_layout_t
  status : status_t
  deriving DecidableEq

/-- Errors surfaced by the manager: `enoent` (NotFound) from `get_onode`,
`value_too_large` (KeyTooLarge) from `get_or_create_onode`, and errors
passed further from the tree collaborator during an erase. -/
inductive onode_err where
  | enoent
  | value_too_large
  | erase_fail
  deriving DecidableEq

/-- Modelled from the spec: the ordered tree collaborator's state, "a
transactional ordered map keyed by generalized object identifiers" (spec §2),
"one tree entry per live object identifier" (spec §6) — an association list
kept sorted by key. -/
abbrev OnodeTree : Type := List (ghobject_t × onode_layout_t)

/-- Decidable equality on fallible results, for evaluating the model. -/
instance {ε α : Type} [DecidableEq ε] [DecidableEq α] : DecidableEq (Except ε α)
  | .ok a, .ok b =>
    decidable_of_iff (a = b) (by constructor <;> (intro h; first | rw [h] | injection h))
  | .ok _, .error _ => .isFalse (by intro h; injection h)
  | .error _, .ok _ => .isFalse (by intro h; injection h)
  | .error a, .error b =>
    decidable_of_iff (a = b) (by constructor <;> (intro h; first | rw [h] | injection h))

/-- The sortedness invariant of the tree: keys strictly ascend in tree order. -/
def tree_sorted (t : OnodeTree) : Prop :=
  (t.map Prod.fst).Pairwise (· < ·)

instance (t : OnodeTree) : Decidable (tree_sorted t) := by
  unfold tree_sorted
  infer_instance

/-- Modelled from the spec: the tree collaborator's `contains(id) -> bool`
(spec §6). -/
def tree_contains (t : OnodeTree) (k : ghobject_t) : Bool :=
  t.any (fun e => e.1 = k)

/-- Modelled from the spec: the tree collaborator's `find(id) -> cursor`
(spec §6); `none` stands for the end-of-tree sentinel cursor. -/
def tree_find (t : OnodeTree) (k : ghobject_t) : Option (ghobject_t × onode_layout_t) :=
  t.find? (fun e => e.1 = k)

/-- Modelled from the spec: the tree collaborator's
`insert(id, value-size-hint) -> (cursor, created)`, an "idempotent upsert:
pre-existing entries are returned unchanged, never overwritten" (spec §4.3).
Returns the updated tree, the value now at the key, and the `created` flag. -/
def tree_insert (k : ghobject_t) (v : onode_layout_t) :
    OnodeTree → OnodeTree × onode_layout_t × Bool
  | [] => ([(k, v)], v, true)
  | e :: rest =>
    if k < e.1 then ((k, v) :: e :: rest, v, true)
    else if k = e.1 then (e :: rest, e.2, false)
    else
      let r := tree_insert k v rest
      (e :: r.1, r.2)

/-- Modelled from the spec: the tree collaborator's `erase(onode)` (spec §6);
"any error from the tree during an erase" is possible (spec §4.5), modelled
as failing when the entry is absent, and otherwise removing the entry. -/
def tree_erase (t : OnodeTree) (k : ghobject_t) : Except onode_err OnodeTree :=
  if tree_contains t k then .ok (t.filter (fun e => decide (e.1 ≠ k))) else .error .erase_fail

/-- Modelled from the spec: the tree collaborator's `lower_bound(id) -> cursor`
(spec §6).  A (non-end) cursor is represented by the suffix of the tree that
starts at the cursor's position, so `get_next` is the tail and `is_end` is
emptiness. -/
def tree_lower_bound (t : OnodeTree) (k : ghobject_t) : List (ghobject_t × onode_layout_t) :=
  t.dropWhile (fun e => decide (e.1 < k))

/-- Transaction-visible state threaded through `write_dirty`: the tree and
the transaction's pending write set (spec §4.5), into which
`populate_recorder` records a mutated payload. -/
structure TransState where
  tree : OnodeTree
  recorded : List (ghobject_t × onode_layout_t)
  deriving DecidableEq

/-- `FLTreeOnodeManager::contains_onode` (fltree_onode_manager.cc:15-27):
delegates to the tree's existence predicate. -/
def contains_onode (t : OnodeTree) (hoid : ghobject_t) : Bool :=
  tree_contains t hoid

/-- `FLTreeOnodeManager::get_onode` (fltree_onode_manager.cc:29-54): point
lookup via `tree.find`; if the cursor equals `tree.end()` fail with `enoent`,
otherwise wrap the found value in a new onode (status `STABLE`, the
constructor default modelled from spec §4.2). -/
def get_onode (t : OnodeTree) (hoid : ghobject_t) : Except onode_err FLTreeOnode :=
  match tree_find t hoid with
  | none => .error .enoent
  | some e => .ok { hoid := e.1, layout := e.2, status := .STABLE }

/-- `FLTreeOnodeManager::get_or_create_onode` (fltree_onode_manager.cc:56-88):
if the combined name/namespace length exceeds `MAX_NS_OID_LENGTH`, fail with
`value_too_large` before any tree access; otherwise upsert via `tree.insert`;
if created, assign the default layout through the mutable accessor
(`get_mutable_layout`, modelled from spec §4.3: it "also transitions status
to MUTATED"); if not created, wrap the pre-existing value (status `STABLE`). -/
def get_or_create_onode (t : OnodeTree) (hoid : ghobject_t) :
    Except onode_err (FLTreeOnode × OnodeTree) :=
  if hoid.name.length + hoid.nspace.length > MAX_NS_OID_LENGTH then
    .error .value_too_large
  else
    let r := tree_insert hoid {} t
    if r.2.2 then
      .ok ({ hoid := hoid, layout := {}, status := .MUTATED }, r.1)
    else
      .ok ({ hoid := hoid, layout := r.2.1, status := .STABLE }, r.1)

/-- `FLTreeOnodeManager::get_or_create_onodes` (fltree_onode_manager.cc:90-110):
`crimson::do_for_each` over the identifiers — strictly sequential, in input
order, pushing each resulting onode onto the accumulator, failing fast on the
first error. -/
def get_or_create_onodes (t : OnodeTree) :
    List ghobject_t → Except onode_err (List FLTreeOnode × OnodeTree)
  | [] => .ok ([], t)
  | hoid :: rest =>
    match get_or_create_onode t hoid with
    | .error e => .error e
    | .ok (o, t') =>
      match get_or_create_onodes t' rest with
      | .error e => .error e
      | .ok (os, t'') => .ok (o :: os, t'')

/-- `FLTreeOnodeManager::write_dirty` (fltree_onode_manager.cc:112-140):
`crimson::do_for_each` over the onodes, dispatching on status — `MUTATED`
calls `populate_recorder` (modelled from spec §4.5: "records the current
in-memory payload into the transaction's pending write set"), `DELETED`
calls `tree.erase`, `STABLE` does nothing.  Returns the state reached
together with the first error, if any; onodes after a failing erase are not
processed and earlier effects stay applied. -/
def write_dirty (s : TransState) :
    List FLTreeOnode → TransState × Option onode_err
  | [] => (s, none)
  | o :: rest =>
    match o.status with
    | .MUTATED => write_dirty { s with recorded := s.recorded ++ [(o.hoid, o.layout)] } rest
    | .DELETED =>
      match tree_erase s.tree o.hoid with
      | .ok t' => write_dirty { s with tree := t' } rest
      | .error e => (s, some e)
    | .STABLE => write_dirty s rest

/-- `FLTreeOnodeManager::erase_onode` (fltree_onode_manager.cc:142-149):
`mark_delete` on the onode (modelled from spec §4.6: "sets the Onode's status
to DELETED"), then immediate success; the tree is not consulted, as the
signature shows. -/
def erase_onode (o : FLTreeOnode) : Except onode_err FLTreeOnode :=
  .ok { o with status := .DELETED }

/-- The `crimson::do_until` loop body of `FLTreeOnodeManager::list_onodes`
(fltree_onode_manager.cc:166-187): while the cursor is not at tree end, its
key is below `endKey` and quota remains, emit the key and advance; at tree
end or at a key `>= endKey` set next-start to `endKey`; on exhausted quota
set next-start to the current (not yet consumed) key. -/
def list_loop (endKey : ghobject_t) :
    List (ghobject_t × onode_layout_t) → Nat → List ghobject_t × ghobject_t
  | [], _ => ([], endKey)
  | c :: rest, to_list =>
    if endKey ≤ c.1 then ([], endKey)
    else if to_list = 0 then ([], c.1)
    else
      let r := list_loop endKey rest (to_list - 1)
      (c.1 :: r.1, r.2)

/-- `FLTreeOnodeManager::list_onodes` (fltree_onode_manager.cc:151-198):
position a cursor at `tree.lower_bound(start)` and run the pagination loop
with quota `limit`. -/
def list_onodes (t : OnodeTree) (start endKey : ghobject_t) (limit : Nat) :
    List ghobject_t × ghobject_t :=
  list_loop endKey (tree_lower_bound t start) limit

/-- Keys of the `DELETED` onodes of a batch, in batch order: the erases that
`write_dirty` issues. -/
def deleted_hoids (os : List FLTreeOnode) : List ghobject_t :=
  (os.filter (fun o => decide (o.status = .DELETED))).map (fun o => o.hoid)

/-- The payload recordings `write_dirty` performs for the `MUTATED` onodes of
a batch, in batch order. -/
def mutated_records (os : List FLTreeOnode) : List (ghobject_t × onode_layout_t) :=
  (os.filter (fun o => decide (o.status = .MUTATED))).map (fun o => (o.hoid, o.layout))

/-- Sequential erasure of a list of keys from the tree (the cumulative tree
effect of a successful `write_dirty` pass). -/
def erase_keys (t : OnodeTree) (ks : List ghobject_t) : OnodeTree :=
  ks.foldl (fun acc k => acc.filter (fun e => decide (e.1 ≠ k))) t

/-! ## Helper lemmas -/

/-- The in-range keys visible to a pagination scan: the keys of the cursor
suffix, up to the first one at or beyond `endKey`. -/
def scan_keys (cur : List (ghobject_t × onode_layout_t)) (endKey : ghobject_t) :
    List ghobject_t :=
  (cur.map Prod.fst).takeWhile (fun k => decide (k < endKey))

theorem list_loop_eq (endKey : ghobject_t) (cur : List (ghobject_t × onode_layout_t))
    (lim : Nat) :
    list_loop endKey cur lim =
      ((scan_keys cur endKey).take lim, (scan_keys cur endKey).getD lim endKey) := by
  induction cur generalizing lim with
  | nil => simp [list_loop, scan_keys, List.getD]
  | cons c rest ih =>
    by_cases hge : endKey ≤ c.1
    · have hnlt : ¬ c.1 < endKey := not_lt.2 hge
      simp [list_loop, hge, scan_keys, List.takeWhile_cons, hnlt, List.getD]
    · have hlt : c.1 < endKey := not_le.1 hge
      cases lim with
      | zero =>
        simp [list_loop, hge, scan_keys, List.takeWhile_cons, hlt, List.getD]
      | succ m =>
        simp [list_loop, hge, scan_keys, List.takeWhile_cons, hlt, ih, List.getD]

theorem tree_lower_bound_split (l1 : List (ghobject_t × onode_layout_t)) :
    ∀ (l2 : List (ghobject_t × onode_layout_t)) (k : ghobject_t) (v : onode_layout_t),
      tree_sorted (l1 ++ (k, v) :: l2) →
      tree_lower_bound (l1 ++ (k, v) :: l2) k = (k, v) :: l2 := by
  induction l1 with
  | nil =>
    intro l2 k v _
    simp [tree_lower_bound, List.dropWhile_cons, lt_irrefl]
  | cons e l1 ih =>
    intro l2 k v hs
    simp only [tree_sorted, List.cons_append, List.map_cons, List.pairwise_cons] at hs
    have hek : e.1 < k := hs.1 k (by simp)
    have hs' : tree_sorted (l1 ++ (k, v) :: l2) := hs.2
    simpa [tree_lower_bound, List.dropWhile_cons, hek] using ih l2 k v hs'

theorem tree_contains_iff_find (t : OnodeTree) (k : ghobject_t) :
    tree_contains t k = true ↔ ∃ e, tree_find t k = some e := by
  constructor
  · intro h
    rw [tree_contains, List.any_eq_true] at h
    obtain ⟨e, he, hk⟩ := h
    have : (tree_find t k).isSome := by
      rw [tree_find, List.find?_isSome]
      exact ⟨e, he, hk⟩
    exact Option.isSome_iff_exists.1 this
  · intro ⟨e, he⟩
    have hmem := List.mem_of_find?_eq_some he
    have hk := List.find?_some he
    rw [tree_contains, List.any_eq_true]
    exact ⟨e, hmem, hk⟩

theorem tree_contains_false_iff_find (t : OnodeTree) (k : ghobject_t) :
    tree_contains t k = false ↔ tree_find t k = none := by
  rw [← Bool.not_eq_true, ← Option.not_isSome_iff_eq_none]
  constructor
  · intro h hsome
    exact h ((tree_contains_iff_find t k).2 (Option.isSome_iff_exists.1 hsome))
  · intro h hc
    obtain ⟨e, he⟩ := (tree_contains_iff_find t k).1 hc
    exact h (by rw [he]; rfl)

theorem tree_insert_created (t : OnodeTree) (k : ghobject_t) (v : onode_layout_t)
    (h : tree_contains t k = false) :
    (tree_insert k v t).2 = (v, true) := by
  induction t with
  | nil => simp [tree_insert]
  | cons e rest ih =>
    simp only [tree_contains, List.any_cons, Bool.or_eq_false_iff] at h
    have hne : ¬ k = e.1 := by
      intro hk
      simp [hk] at h
    by_cases hlt : k < e.1
    · simp [tree_insert, hlt]
    · have := ih (by simpa [tree_contains] using h.2)
      simp [tree_insert, hlt, hne, this]

theorem tree_insert_found (t : OnodeTree) (k : ghobject_t) (v : onode_layout_t)
    (e : ghobject_t × onode_layout_t)
    (hs : tree_sorted t) (h : tree_find t k = some e) :
    tree_insert k v t = (t, e.2, false) ∧ e.1 = k := by
  induction t with
  | nil => simp [tree_find] at h
  | cons e0 rest ih =>
    simp only [tree_sorted, List.map_cons, List.pairwise_cons] at hs
    by_cases he0 : e0.1 = k
    · have h' : e0 = e := by simpa [tree_find, List.find?_cons, he0] using h
      subst h'
      have hnlt : ¬ k < e0.1 := by rw [he0]; exact lt_irrefl k
      have heq : k = e0.1 := he0.symm
      exact ⟨by simp [tree_insert, hnlt, heq], he0⟩
    · have hfind : rest.find? (fun x => decide (x.1 = k)) = some e := by
        simpa [tree_find, List.find?_cons, he0] using h
      have hmem := List.mem_of_find?_eq_some hfind
      have hpe := List.find?_some hfind
      have hek' : e.1 = k := by simpa using hpe
      have hgt : e0.1 < k := by
        have := hs.1 e.1 (List.mem_map_of_mem Prod.fst hmem)
        rwa [hek'] at this
      have hnlt : ¬ k < e0.1 := not_lt.2 hgt.le
      have hne : ¬ k = e0.1 := fun hk => he0 hk.symm
      obtain ⟨hins, _⟩ := ih hs.2 (by rw [tree_find]; exact hfind)
      refine ⟨?_, hek'⟩
      simp [tree_insert, hnlt, hne, hins]

theorem erase_keys_mem (ks : List ghobject_t) :
    ∀ (t : OnodeTree) (e : ghobject_t × onode_layout_t),
      e ∈ erase_keys t ks ↔ e ∈ t ∧ e.1 ∉ ks := by
  induction ks with
  | nil => intro t e; simp [erase_keys]
  | cons k ks ih =>
    intro t e
    have hstep : erase_keys t (k :: ks) = erase_keys (t.filter (fun e => decide (e.1 ≠ k))) ks := rfl
    rw [hstep, ih]
    constructor
    · rintro ⟨hm, hnin⟩
      rw [List.mem_filter] at hm
      have hne : e.1 ≠ k := by simpa using hm.2
      exact ⟨hm.1, by simp [hne, hnin]⟩
    · rintro ⟨hm, hnin⟩
      simp only [List.mem_cons, not_or] at hnin
      exact ⟨List.mem_filter.2 ⟨hm, by simpa using hnin.1⟩, hnin.2⟩

/-- The length precondition of `get_or_create_onode` (fltree_onode_manager.cc:61-62):
the combined byte length of the identifier's name and namespace exceeds
`MAX_NS_OID_LENGTH`. -/
def ns_oid_too_large (k : ghobject_t) : Prop :=
  k.name.length + k.nspace.length > MAX_NS_OID_LENGTH

instance (k : ghobject_t) : Decidable (ns_oid_too_large k) := by
  unfold ns_oid_too_large
  infer_instance

theorem get_or_create_too_large (t : OnodeTree) (k : ghobject_t)
    (h : ns_oid_too_large k) :
    get_or_create_onode t k = .error .value_too_large := by
  unfold ns_oid_too_large at h
  rw [get_or_create_onode, if_pos h]

theorem get_or_create_ok_of_len (t : OnodeTree) (k : ghobject_t)
    (h : ¬ ns_oid_too_large k) :
    ∃ o t', get_or_create_onode t k = .ok (o, t') := by
  unfold ns_oid_too_large at h
  rw [get_or_create_onode, if_neg h]
  by_cases hcr : (tree_insert k {} t).2.2
  · refine ⟨{ hoid := k, layout := {}, status := .MUTATED }, (tree_insert k {} t).1, ?_⟩
    simp [hcr]
  · refine ⟨{ hoid := k, layout := (tree_insert k {} t).2.1, status := .STABLE },
      (tree_insert k {} t).1, ?_⟩
    simp [hcr]

theorem get_or_create_error_elim (t : OnodeTree) (k : ghobject_t) (err : onode_err)
    (h : get_or_create_onode t k = .error err) :
    err = .value_too_large ∧ ns_oid_too_large k := by
  by_cases hl : ns_oid_too_large k
  · rw [get_or_create_too_large t k hl] at h
    injection h with h
    exact ⟨h.symm, hl⟩
  · obtain ⟨o, t', ho⟩ := get_or_create_ok_of_len t k hl
    rw [ho] at h
    cases h

/-! ## Concrete fixtures used by the witnesses -/

/-- A small concrete identifier, distinguished by one name byte. -/
def wkey (n : Nat) : ghobject_t :=
  { shard := 0, nspace := [], name := [n], hash := 0, snap := 0, gen := 0 }

/-- An identifier whose combined name/namespace length exceeds the maximum. -/
def wkey_big : ghobject_t :=
  { shard := 0, nspace := [], name := List.replicate (MAX_NS_OID_LENGTH + 1) 0,
    hash := 0, snap := 0, gen := 0 }

/-- A concrete payload value. -/
def wval : onode_layout_t := {}

/-- A concrete five-entry sorted tree. -/
def wtree : OnodeTree :=
  [(wkey 1, wval), (wkey 2, wval), (wkey 3, wval), (wkey 4, wval), (wkey 5, wval)]

theorem wkey_big_too_large : ns_oid_too_large wkey_big := by
  have h : wkey_big.name.length = MAX_NS_OID_LENGTH + 1 := by
    rw [show wkey_big.name = List.replicate (MAX_NS_OID_LENGTH + 1) 0 from rfl]
    simp
  have h2 : wkey_big.nspace.length = 0 := rfl
  unfold ns_oid_too_large
  rw [h, h2]
  omega

/-! ## Claims -/

/-- C5: for every identifier whose combined namespace plus name byte length
exceeds `MAX_NS_OID_LENGTH`, `get_or_create_onode` fails with KeyTooLarge
(`value_too_large`) before any tree access — in this embedding the error is
produced without touching `t`, and no updated tree is returned, so the
caller's tree is unchanged; for every identifier within the bound,
`get_or_create_onode` never fails with KeyTooLarge (indeed never fails) and
proceeds to the tree upsert, returning `tree_insert`'s resulting tree. -/
theorem get_or_create_key_too_large (t : OnodeTree) (k : ghobject_t) :
    (ns_oid_too_large k → get_or_create_onode t k = .error .value_too_large) ∧
    (¬ ns_oid_too_large k →
      (∀ err, get_or_create_onode t k ≠ .error err) ∧
      ∃ o, get_or_create_onode t k = .ok (o, (tree_insert k {} t).1)) := by
  constructor
  · exact get_or_create_too_large t k
  · intro hl
    constructor
    · intro err herr
      exact hl (get_or_create_error_elim t k err herr).2
    · unfold ns_oid_too_large at hl
      rw [get_or_create_onode, if_neg hl]
      by_cases hcr : (tree_insert k {} t).2.2
      · refine ⟨{ hoid := k, layout := {}, status := .MUTATED }, ?_⟩
        simp [hcr]
      · refine ⟨{ hoid := k, layout := (tree_insert k {} t).2.1, status := .STABLE }, ?_⟩
        simp [hcr]

/-- Witness for C5: on the concrete five-entry tree, the oversized identifier
is rejected with KeyTooLarge, and a small identifier is not. -/
theorem get_or_create_key_too_large_witness :
    get_or_create_onode wtree wkey_big = .error .value_too_large ∧
    ∀ err, get_or_create_onode wtree (wkey 7) ≠ .error err := by
  constructor
  · exact (get_or_create_key_too_large wtree wkey_big).1 wkey_big_too_large
  · exact ((get_or_create_key_too_large wtree (wkey 7)).2 (by decide)).1

/-- C8: `get_onode` fails with NotFound (`enoent`) if and only if the tree's
point lookup returns the end-of-tree sentinel cursor (`none`); otherwise it
returns an onode wrapping the found value with status `STABLE`.  The
embedding of `get_onode` is a pure function of the tree that returns no
updated tree, so it mutates nothing. -/
theorem get_onode_lookup (t : OnodeTree) (k : ghobject_t) :
    (get_onode t k = .error .enoent ↔ tree_find t k = none) ∧
    (∀ e, tree_find t k = some e →
      get_onode t k = .ok { hoid := e.1, layout := e.2, status := .STABLE }) ∧
    (∀ o, get_onode t k = .ok o →
      o.status = .STABLE ∧ o.hoid = k ∧ (o.hoid, o.layout) ∈ t) := by
  refine ⟨?_, ?_, ?_⟩
  · cases hf : tree_find t k with
    | none => simp [get_onode, hf]
    | some e => simp [get_onode, hf]
  · intro e hf
    simp [get_onode, hf]
  · intro o h
    cases hf : tree_find t k with
    | none => simp [get_onode, hf] at h
    | some e =>
      simp only [get_onode, hf] at h
      injection h with h
      have hfind : t.find? (fun x => decide (x.1 = k)) = some e := by
        simpa [tree_find] using hf
      have hmem : e ∈ t := List.mem_of_find?_eq_some hfind
      have hpe := List.find?_some hfind
      have hek : e.1 = k := by simpa using hpe
      refine ⟨by simp [← h], by simp [← h, hek], ?_⟩
      rw [← h]
      simpa using hmem

/-- Witness for C8: on the concrete tree, a present identifier is returned as
a `STABLE` onode and an absent one fails with `enoent`. -/
theorem get_onode_lookup_witness :
    get_onode wtree (wkey 3) = .ok { hoid := wkey 3, layout := wval, status := .STABLE } ∧
    (get_onode wtree (wkey 7) = .error .enoent ↔ tree_find wtree (wkey 7) = none) := by
  constructor
  · exact (get_onode_lookup wtree (wkey 3)).2.1 (wkey 3, wval) (by decide)
  · exact (get_onode_lookup wtree (wkey 7)).1

/-- C2: `erase_onode` is purely local: it sets the onode's status to
`DELETED` and returns success immediately, without taking the tree at all
(its embedding is a function of the onode alone, so the tree is untouched);
consequently the identifier is still found by `contains_onode` and
`get_onode` after the erase, and only once `write_dirty` processes the
`DELETED` onode does `contains_onode` on the resulting tree return false. -/
theorem erase_onode_deferred (t : OnodeTree) (recs : List (ghobject_t × onode_layout_t))
    (o : FLTreeOnode) (hin : contains_onode t o.hoid = true) :
    erase_onode o = .ok { o with status := .DELETED } ∧
    contains_onode t o.hoid = true ∧
    (∃ o2, get_onode t o.hoid = .ok o2) ∧
    (write_dirty ⟨t, recs⟩ [{ o with status := .DELETED }]).2 = none ∧
    contains_onode (write_dirty ⟨t, recs⟩ [{ o with status := .DELETED }]).1.tree o.hoid
      = false := by
  have hc : tree_contains t o.hoid = true := hin
  obtain ⟨e, hf⟩ := (tree_contains_iff_find t o.hoid).1 hc
  have herase : tree_erase t o.hoid = .ok (t.filter (fun x => decide (x.1 ≠ o.hoid))) := by
    rw [tree_erase, if_pos hc]
  have hwd : write_dirty ⟨t, recs⟩ [{ o with status := .DELETED }] =
      (⟨t.filter (fun x => decide (x.1 ≠ o.hoid)), recs⟩, none) := by
    simp [write_dirty, herase]
  refine ⟨rfl, hin, ⟨{ hoid := e.1, layout := e.2, status := .STABLE }, by simp [get_onode, hf]⟩,
    by rw [hwd], ?_⟩
  rw [hwd]
  simp only [contains_onode, tree_contains, List.any_eq_true, List.mem_filter]
  simp

/-- Witness for C2: erasing the onode of identifier 2 in the concrete tree is
a local success; the identifier stays visible until `write_dirty`, after
which it is gone. -/
theorem erase_onode_deferred_witness :
    erase_onode ⟨wkey 2, wval, .STABLE⟩ = .ok ⟨wkey 2, wval, .DELETED⟩ ∧
    contains_onode wtree (wkey 2) = true ∧
    (∃ o2, get_onode wtree (wkey 2) = .ok o2) ∧
    (write_dirty ⟨wtree, []⟩ [⟨wkey 2, wval, .DELETED⟩]).2 = none ∧
    contains_onode (write_dirty ⟨wtree, []⟩ [⟨wkey 2, wval, .DELETED⟩]).1.tree (wkey 2)
      = false :=
  erase_onode_deferred wtree [] ⟨wkey 2, wval, .STABLE⟩ (by decide)

theorem mutated_records_cons (o : FLTreeOnode) (rest : List FLTreeOnode) :
    mutated_records (o :: rest) =
      (if o.status = .MUTATED then [(o.hoid, o.layout)] else []) ++ mutated_records rest := by
  simp only [mutated_records, List.filter_cons]
  split <;> simp_all

theorem deleted_hoids_cons (o : FLTreeOnode) (rest : List FLTreeOnode) :
    deleted_hoids (o :: rest) =
      (if o.status = .DELETED then [o.hoid] else []) ++ deleted_hoids rest := by
  simp only [deleted_hoids, List.filter_cons]
  split <;> simp_all

theorem tree_erase_ok (t : OnodeTree) (k : ghobject_t) (t1 : OnodeTree)
    (h : tree_erase t k = .ok t1) :
    t1 = t.filter (fun e => decide (e.1 ≠ k)) := by
  by_cases hc : tree_contains t k
  · rw [tree_erase, if_pos hc] at h
    injection h with h
    exact h.symm
  · rw [tree_erase, if_neg hc] at h
    cases h

/-- C1: a successful `write_dirty` pass processes the batch strictly in input
order and dispatches on each onode's status: the `MUTATED` onodes have their
current in-memory payloads appended to the transaction's pending write set,
in batch order, with no tree mutation for them; the `DELETED` onodes each
have a tree erase issued during this pass (and not earlier: the input tree
`s.tree` still holds their entries); the `STABLE` onodes cause no tree
operation and no recording.  The final tree is the input tree minus exactly
the `DELETED` keys. -/
theorem write_dirty_status_dispatch (s s' : TransState) (os : List FLTreeOnode)
    (h : write_dirty s os = (s', none)) :
    s'.recorded = s.recorded ++ mutated_records os ∧
    s'.tree = erase_keys s.tree (deleted_hoids os) ∧
    (∀ e, e ∈ s'.tree ↔ e ∈ s.tree ∧ e.1 ∉ deleted_hoids os) := by
  suffices hmain : ∀ (os : List FLTreeOnode) (s s' : TransState),
      write_dirty s os = (s', none) →
      s'.recorded = s.recorded ++ mutated_records os ∧
      s'.tree = erase_keys s.tree (deleted_hoids os) by
    obtain ⟨h1, h2⟩ := hmain os s s' h
    refine ⟨h1, h2, fun e => ?_⟩
    rw [h2]
    exact erase_keys_mem _ _ _
  intro os
  induction os with
  | nil =>
    intro s s' h
    simp only [write_dirty] at h
    injection h with h1 _
    subst h1
    simp [mutated_records, deleted_hoids, erase_keys]
  | cons o rest ih =>
    intro s s' h
    cases ho : o.status with
    | STABLE =>
      simp only [write_dirty, ho] at h
      obtain ⟨h1, h2⟩ := ih s s' h
      constructor
      · rw [h1, mutated_records_cons, ho]
        simp
      · rw [h2, deleted_hoids_cons, ho]
        simp
    | MUTATED =>
      simp only [write_dirty, ho] at h
      obtain ⟨h1, h2⟩ := ih _ s' h
      constructor
      · rw [h1, mutated_records_cons, ho]
        simp
      · rw [h2, deleted_hoids_cons, ho]
        simp
    | DELETED =>
      cases he : tree_erase s.tree o.hoid with
      | ok t1 =>
        simp only [write_dirty, ho, he] at h
        obtain ⟨h1, h2⟩ := ih _ s' h
        have ht1 := tree_erase_ok _ _ _ he
        constructor
        · rw [h1, mutated_records_cons, ho]
          simp
        · rw [h2, ht1, deleted_hoids_cons, ho, if_pos rfl]
          rfl
      | error e2 =>
        simp only [write_dirty, ho, he] at h
        cases h

/-- Witness for C1: a batch of one `STABLE`, one `MUTATED` and one `DELETED`
onode over the concrete tree records exactly the `MUTATED` payload and
erases exactly the `DELETED` entry. -/
theorem write_dirty_status_dispatch_witness :
    ([(wkey 2, wval)] : List (ghobject_t × onode_layout_t)) =
      [] ++ mutated_records
        [⟨wkey 1, wval, .STABLE⟩, ⟨wkey 2, wval, .MUTATED⟩, ⟨wkey 3, wval, .DELETED⟩] ∧
    ([(wkey 1, wval), (wkey 2, wval), (wkey 4, wval), (wkey 5, wval)] : OnodeTree) =
      erase_keys wtree (deleted_hoids
        [⟨wkey 1, wval, .STABLE⟩, ⟨wkey 2, wval, .MUTATED⟩, ⟨wkey 3, wval, .DELETED⟩]) ∧
    (∀ e, e ∈ ([(wkey 1, wval), (wkey 2, wval), (wkey 4, wval), (wkey 5, wval)] : OnodeTree) ↔
      e ∈ wtree ∧ e.1 ∉ deleted_hoids
        [⟨wkey 1, wval, .STABLE⟩, ⟨wkey 2, wval, .MUTATED⟩, ⟨wkey 3, wval, .DELETED⟩]) :=
  write_dirty_status_dispatch ⟨wtree, []⟩
    ⟨[(wkey 1, wval), (wkey 2, wval), (wkey 4, wval), (wkey 5, wval)], [(wkey 2, wval)]⟩
    [⟨wkey 1, wval, .STABLE⟩, ⟨wkey 2, wval, .MUTATED⟩, ⟨wkey 3, wval, .DELETED⟩]
    (by decide)

/-- C9: if the tree erase of a `DELETED` onode fails, `write_dirty` stops at
that point: the result is exactly the state reached after the onodes before
the failure (their recordings and completed erases stay applied, nothing is
undone), the failing erase's error is reported, and the onodes after the
failing one contribute nothing. -/
theorem write_dirty_fail_fast (s1 : TransState) (pre post : List FLTreeOnode)
    (d : FLTreeOnode) (err : onode_err) :
    ∀ s : TransState, write_dirty s pre = (s1, none) →
    d.status = .DELETED →
    tree_erase s1.tree d.hoid = .error err →
    write_dirty s (pre ++ d :: post) = (s1, some err) := by
  induction pre with
  | nil =>
    intro s hpre hd herr
    simp only [write_dirty] at hpre
    injection hpre with h1 _
    subst h1
    simp [write_dirty, hd, herr]
  | cons o pre ih =>
    intro s hpre hd herr
    cases ho : o.status with
    | STABLE =>
      simp only [write_dirty, ho] at hpre
      simpa [write_dirty, ho] using ih _ hpre hd herr
    | MUTATED =>
      simp only [write_dirty, ho] at hpre
      simpa [write_dirty, ho] using ih _ hpre hd herr
    | DELETED =>
      cases he : tree_erase s.tree o.hoid with
      | ok t1 =>
        simp only [write_dirty, ho, he] at hpre
        simpa [write_dirty, ho, he] using ih _ hpre hd herr
      | error e2 =>
        simp only [write_dirty, ho, he] at hpre
        cases hpre

/-- Witness for C9: a batch whose second onode is `DELETED` with an absent
key stops there — the recording made for the first (`MUTATED`) onode stays,
the error is reported, and the third onode (a `DELETED` entry that is
present) is never erased. -/
theorem write_dirty_fail_fast_witness :
    write_dirty ⟨wtree, []⟩
      ([⟨wkey 2, wval, .MUTATED⟩] ++ ⟨wkey 9, wval, .DELETED⟩ :: [⟨wkey 3, wval, .DELETED⟩])
      = (⟨wtree, [(wkey 2, wval)]⟩, some .erase_fail) :=
  write_dirty_fail_fast ⟨wtree, [(wkey 2, wval)]⟩ [⟨wkey 2, wval, .MUTATED⟩]
    [⟨wkey 3, wval, .DELETED⟩] ⟨wkey 9, wval, .DELETED⟩ .erase_fail ⟨wtree, []⟩
    (by decide) rfl (by decide)

theorem get_or_create_hoid (t : OnodeTree) (k : ghobject_t) (o : FLTreeOnode)
    (t' : OnodeTree) (h : get_or_create_onode t k = .ok (o, t')) : o.hoid = k := by
  by_cases hl : k.name.length + k.nspace.length > MAX_NS_OID_LENGTH
  · rw [get_or_create_onode, if_pos hl] at h
    cases h
  · rw [get_or_create_onode, if_neg hl] at h
    by_cases hcr : (tree_insert k {} t).2.2
    · simp only [hcr, if_true] at h
      injection h with h
      injection h with h1 _
      rw [← h1]
    · simp only [hcr, if_false, Bool.false_eq_true] at h
      injection h with h
      injection h with h1 _
      rw [← h1]

/-- C7: `get_or_create_onodes` processes the identifiers strictly
sequentially in input order; on success it returns exactly one onode per
input identifier, whose keys are the inputs in the exact input order; the
batch fails if and only if some individual `get_or_create_onode` call fails
(which happens exactly on an oversized identifier), the first failure aborts
the rest, and no partial success is reported (the error carries no onodes). -/
theorem get_or_create_onodes_batch (t : OnodeTree) (hoids : List ghobject_t) :
    (∀ os t', get_or_create_onodes t hoids = .ok (os, t') →
      os.map (fun o => o.hoid) = hoids) ∧
    ((∃ err, get_or_create_onodes t hoids = .error err) ↔
      ∃ k ∈ hoids, ns_oid_too_large k) ∧
    (∀ err, get_or_create_onodes t hoids = .error err → err = .value_too_large) := by
  induction hoids generalizing t with
  | nil =>
    refine ⟨?_, ?_, ?_⟩
    · intro os t' h
      simp only [get_or_create_onodes] at h
      injection h with h
      injection h with h1 _
      rw [← h1]
      rfl
    · simp [get_or_create_onodes]
    · intro err h
      simp [get_or_create_onodes] at h
  | cons k rest ih =>
    by_cases hk : ns_oid_too_large k
    · have herr : get_or_create_onode t k = .error .value_too_large :=
        get_or_create_too_large t k hk
      refine ⟨?_, ?_, ?_⟩
      · intro os t' h
        simp [get_or_create_onodes, herr] at h
      · constructor
        · intro _
          exact ⟨k, by simp, hk⟩
        · intro _
          exact ⟨.value_too_large, by simp [get_or_create_onodes, herr]⟩
      · intro err h
        simp only [get_or_create_onodes, herr] at h
        injection h with h
        rw [← h]
    · obtain ⟨o, t1, ho⟩ := get_or_create_ok_of_len t k hk
      have hhoid : o.hoid = k := get_or_create_hoid t k o t1 ho
      cases hrest : get_or_create_onodes t1 rest with
      | error e2 =>
        have hstep : get_or_create_onodes t (k :: rest) = .error e2 := by
          simp [get_or_create_onodes, ho, hrest]
        refine ⟨?_, ?_, ?_⟩
        · intro os t' h
          rw [hstep] at h
          cases h
        · constructor
          · intro _
            obtain ⟨k2, hk2mem, hk2⟩ := ((ih t1).2.1).1 ⟨e2, hrest⟩
            exact ⟨k2, by simp [hk2mem], hk2⟩
          · intro _
            exact ⟨e2, hstep⟩
        · intro err h
          rw [hstep] at h
          injection h with h
          rw [← h]
          exact (ih t1).2.2 e2 hrest
      | ok p =>
        have hstep : get_or_create_onodes t (k :: rest) = .ok (o :: p.1, p.2) := by
          simp [get_or_create_onodes, ho, hrest]
        refine ⟨?_, ?_, ?_⟩
        · intro os t' h
          rw [hstep] at h
          injection h with h
          injection h with h1 h2
          rw [← h1, List.map_cons, hhoid, (ih t1).1 p.1 p.2 (by rw [hrest])]
        · constructor
          · intro ⟨err, herr2⟩
            rw [hstep] at herr2
            cases herr2
          · intro ⟨k2, hmem, hk2⟩
            rcases List.mem_cons.1 hmem with heq | hmem2
            · exact absurd hk2 (heq ▸ hk)
            · obtain ⟨err, herr⟩ := ((ih t1).2.1).2 ⟨k2, hmem2, hk2⟩
              rw [hrest] at herr
              cases herr
        · intro err h
          rw [hstep] at h
          cases h

/-- Witness for C7: creating `[6, 3, 0]` over the concrete tree (6 and 0 new,
3 pre-existing) succeeds with onodes whose keys are exactly the inputs in
input order. -/
theorem get_or_create_onodes_batch_witness :
    [(⟨wkey 6, wval, .MUTATED⟩ : FLTreeOnode), ⟨wkey 3, wval, .STABLE⟩,
      ⟨wkey 0, wval, .MUTATED⟩].map (fun o => o.hoid) = [wkey 6, wkey 3, wkey 0] :=
  (get_or_create_onodes_batch wtree [wkey 6, wkey 3, wkey 0]).1
    [⟨wkey 6, wval, .MUTATED⟩, ⟨wkey 3, wval, .STABLE⟩, ⟨wkey 0, wval, .MUTATED⟩]
    ((wkey 0, wval) :: wtree ++ [(wkey 6, wval)]) (by decide)

/-- C6: for an identifier passing the length check, `get_or_create_onode`
issues the idempotent upsert and: if the tree reports the entry as newly
created, the returned onode carries the default payload assigned through the
mutable accessor and status `MUTATED`; if the entry pre-existed, the
returned onode wraps the existing value unchanged with status `STABLE` and
the tree itself is unchanged; in both cases an onode reference is returned
(the operation cannot fail after the length check). -/
theorem get_or_create_upsert (t : OnodeTree) (k : ghobject_t)
    (hs : tree_sorted t) (hlen : ¬ ns_oid_too_large k) :
    (tree_contains t k = false →
      get_or_create_onode t k =
        .ok ({ hoid := k, layout := {}, status := .MUTATED }, (tree_insert k {} t).1)) ∧
    (∀ e, tree_find t k = some e →
      get_or_create_onode t k = .ok ({ hoid := k, layout := e.2, status := .STABLE }, t)) ∧
    (∃ o t', get_or_create_onode t k = .ok (o, t')) := by
  have hlen' : ¬ k.name.length + k.nspace.length > MAX_NS_OID_LENGTH := hlen
  refine ⟨?_, ?_, get_or_create_ok_of_len t k hlen⟩
  · intro hc
    have hcr : (tree_insert k {} t).2 = ({}, true) := tree_insert_created t k {} hc
    rw [get_or_create_onode, if_neg hlen']
    have h22 : (tree_insert k {} t).2.2 = true := by rw [hcr]
    simp [h22]
  · intro e hf
    obtain ⟨hins, hek⟩ := tree_insert_found t k {} e hs hf
    rw [get_or_create_onode, if_neg hlen']
    have h22 : (tree_insert k {} t).2.2 = false := by rw [hins]
    have h21 : (tree_insert k {} t).2.1 = e.2 := by rw [hins]
    have h1 : (tree_insert k {} t).1 = t := by rw [hins]
    simp [h22, h21, h1]

/-- Witness for C6: over the concrete tree, identifier 6 is newly created
(`MUTATED`, default payload) and identifier 3 pre-exists (`STABLE`, tree
returned unchanged). -/
theorem get_or_create_upsert_witness :
    get_or_create_onode wtree (wkey 6) =
      .ok ({ hoid := wkey 6, layout := {}, status := .MUTATED },
        (tree_insert (wkey 6) {} wtree).1) ∧
    get_or_create_onode wtree (wkey 3) =
      .ok ({ hoid := wkey 3, layout := wval, status := .STABLE }, wtree) := by
  constructor
  · exact (get_or_create_upsert wtree (wkey 6) (by decide) (by decide)).1 (by decide)
  · exact (get_or_create_upsert wtree (wkey 3) (by decide) (by decide)).2.1
      (wkey 3, wval) (by decide)

theorem scan_keys_drop (endKey : ghobject_t) :
    ∀ (cur : List (ghobject_t × onode_layout_t)) (lim : Nat),
      lim < (scan_keys cur endKey).length →
      ∃ v rest, cur.drop lim = ((scan_keys cur endKey).getD lim endKey, v) :: rest := by
  intro cur
  induction cur with
  | nil =>
    intro lim h
    simp [scan_keys] at h
  | cons c cs ih =>
    intro lim h
    by_cases hc : c.1 < endKey
    · have hscan : scan_keys (c :: cs) endKey = c.1 :: scan_keys cs endKey := by
        simp [scan_keys, List.takeWhile_cons, hc]
      cases lim with
      | zero =>
        refine ⟨c.2, cs, ?_⟩
        simp [hscan]
      | succ m =>
        rw [hscan] at h
        have hm : m < (scan_keys cs endKey).length := by simpa using h
        obtain ⟨v, rest, hvr⟩ := ih m hm
        refine ⟨v, rest, ?_⟩
        simpa [hscan] using hvr
    · have hscan : scan_keys (c :: cs) endKey = [] := by
        simp [scan_keys, List.takeWhile_cons, hc]
      rw [hscan] at h
      simp at h

/-- C3: `list_onodes` never returns an identifier at or beyond `endKey`; when
the scan stops because it reached tree end or an identifier `>= endKey`
while quota remained, the returned next-start equals `endKey` (the end
conditions take priority over the quota check); otherwise — quota exhausted
strictly inside the range — the returned next-start is the current,
not-yet-consumed identifier: it is the key of the first cursor entry not
consumed by this call, and a fresh lower-bound from it resumes exactly at
that entry. -/
theorem list_onodes_boundary (t : OnodeTree) (start endKey : ghobject_t) (lim : Nat)
    (hs : tree_sorted t) :
    (∀ k ∈ (list_onodes t start endKey lim).1, k < endKey) ∧
    ((list_onodes t start endKey lim).1.length < lim →
      (list_onodes t start endKey lim).2 = endKey) ∧
    ((list_onodes t start endKey lim).2 = endKey ∨
      ((list_onodes t start endKey lim).2 < endKey ∧
       (list_onodes t start endKey lim).1.length = lim ∧
       ∃ v rest,
         (tree_lower_bound t start).drop lim =
           ((list_onodes t start endKey lim).2, v) :: rest ∧
         tree_lower_bound t (list_onodes t start endKey lim).2 =
           ((list_onodes t start endKey lim).2, v) :: rest)) := by
  have hl := list_loop_eq endKey (tree_lower_bound t start) lim
  have h1 : (list_onodes t start endKey lim).1 =
      (scan_keys (tree_lower_bound t start) endKey).take lim := by
    rw [list_onodes, hl]
  have h2 : (list_onodes t start endKey lim).2 =
      (scan_keys (tree_lower_bound t start) endKey).getD lim endKey := by
    rw [list_onodes, hl]
  refine ⟨?_, ?_, ?_⟩
  · intro k hk
    rw [h1] at hk
    have hk2 : k ∈ scan_keys (tree_lower_bound t start) endKey := List.mem_of_mem_take hk
    rw [scan_keys] at hk2
    have := List.mem_takeWhile_imp hk2
    simpa using this
  · intro hlen
    rw [h1, List.length_take] at hlen
    have hlt : (scan_keys (tree_lower_bound t start) endKey).length < lim := by
      rcases Nat.le_total lim (scan_keys (tree_lower_bound t start) endKey).length with hle | hle
      · rw [Nat.min_eq_left hle] at hlen
        exact absurd hlen (lt_irrefl lim)
      · rwa [Nat.min_eq_right hle] at hlen
    rw [h2]
    exact List.getD_eq_default _ _ hlt.le
  · by_cases hcase : (scan_keys (tree_lower_bound t start) endKey).length ≤ lim
    · left
      rw [h2]
      exact List.getD_eq_default _ _ hcase
    · right
      push_neg at hcase
      obtain ⟨v, rest, hvr⟩ := scan_keys_drop endKey (tree_lower_bound t start) lim hcase
      have hgd : (scan_keys (tree_lower_bound t start) endKey).getD lim endKey =
          (scan_keys (tree_lower_bound t start) endKey).get ⟨lim, hcase⟩ := by
        rw [List.getD_eq_getElem _ _ hcase]
        simp
      have hnxtmem : (scan_keys (tree_lower_bound t start) endKey).getD lim endKey ∈
          scan_keys (tree_lower_bound t start) endKey := by
        rw [hgd]
        exact List.get_mem _ lim hcase
      have hklt : (scan_keys (tree_lower_bound t start) endKey).getD lim endKey < endKey := by
        rw [scan_keys] at hnxtmem
        have := List.mem_takeWhile_imp hnxtmem
        simpa using this
      refine ⟨?_, ?_, v, rest, ?_, ?_⟩
      · rw [h2]
        exact hklt
      · rw [h1, List.length_take]
        exact Nat.min_eq_left hcase.le
      · rw [h2]
        exact hvr
      · rw [h2]
        have hsplit : t =
            (t.takeWhile (fun e => decide (e.1 < start)) ++
              (tree_lower_bound t start).take lim) ++
            (((scan_keys (tree_lower_bound t start) endKey).getD lim endKey, v) :: rest) := by
          rw [List.append_assoc, ← hvr, List.take_append_drop]
          rw [tree_lower_bound]
          exact (List.takeWhile_append_dropWhile _ _).symm
        have hs2 : tree_sorted
            ((t.takeWhile (fun e => decide (e.1 < start)) ++
              (tree_lower_bound t start).take lim) ++
            (((scan_keys (tree_lower_bound t start) endKey).getD lim endKey, v) :: rest)) := by
          rw [← hsplit]
          exact hs
        have hres := tree_lower_bound_split
          (t.takeWhile (fun e => decide (e.1 < start)) ++ (tree_lower_bound t start).take lim)
          rest ((scan_keys (tree_lower_bound t start) endKey).getD lim endKey) v hs2
        rw [← hsplit] at hres
        exact hres

/-- Witness for C3: the boundary/quota contract instantiated on the concrete
five-entry tree with quota 2, where the quota runs out strictly inside the
range. -/
theorem list_onodes_boundary_witness :
    (∀ k ∈ (list_onodes wtree (wkey 0) (wkey 9) 2).1, k < wkey 9) ∧
    ((list_onodes wtree (wkey 0) (wkey 9) 2).1.length < 2 →
      (list_onodes wtree (wkey 0) (wkey 9) 2).2 = wkey 9) ∧
    ((list_onodes wtree (wkey 0) (wkey 9) 2).2 = wkey 9 ∨
      ((list_onodes wtree (wkey 0) (wkey 9) 2).2 < wkey 9 ∧
       (list_onodes wtree (wkey 0) (wkey 9) 2).1.length = 2 ∧
       ∃ v rest,
         (tree_lower_bound wtree (wkey 0)).drop 2 =
           ((list_onodes wtree (wkey 0) (wkey 9) 2).2, v) :: rest ∧
         tree_lower_bound wtree (list_onodes wtree (wkey 0) (wkey 9) 2).2 =
           ((list_onodes wtree (wkey 0) (wkey 9) 2).2, v) :: rest)) :=
  list_onodes_boundary wtree (wkey 0) (wkey 9) 2 (by decide)

/-- C10: a `list_onodes` call with limit zero whose lower-bound cursor is not
at tree end and whose first identifier is strictly below `endKey` returns
the empty sequence with next-start equal to that first identifier (not
`endKey`), and resuming from that next-start with limit zero yields the same
result again: a limit-zero call on a non-exhausted range makes no
progress. -/
theorem list_onodes_limit_zero (t : OnodeTree) (start endKey k : ghobject_t)
    (v : onode_layout_t) (rest : List (ghobject_t × onode_layout_t))
    (hs : tree_sorted t)
    (hlb : tree_lower_bound t start = (k, v) :: rest)
    (hk : k < endKey) :
    list_onodes t start endKey 0 = ([], k) ∧
    list_onodes t k endKey 0 = ([], k) := by
  have hnle : ¬ endKey ≤ k := not_le.2 hk
  constructor
  · rw [list_onodes, hlb]
    simp [list_loop, hnle]
  · have hsplit : t = t.takeWhile (fun e => decide (e.1 < start)) ++ ((k, v) :: rest) := by
      rw [← hlb, tree_lower_bound]
      exact (List.takeWhile_append_dropWhile _ _).symm
    have hs2 : tree_sorted (t.takeWhile (fun e => decide (e.1 < start)) ++ ((k, v) :: rest)) := by
      rw [← hsplit]
      exact hs
    have hres := tree_lower_bound_split (t.takeWhile (fun e => decide (e.1 < start))) rest k v hs2
    rw [← hsplit] at hres
    rw [list_onodes, hres]
    simp [list_loop, hnle]

/-- Witness for C10: on the concrete tree, a limit-zero call starting below
the first entry returns no identifiers and next-start 1, and the repeated
call from 1 returns the same. -/
theorem list_onodes_limit_zero_witness :
    list_onodes wtree (wkey 0) (wkey 9) 0 = ([], wkey 1) ∧
    list_onodes wtree (wkey 1) (wkey 9) 0 = ([], wkey 1) :=
  list_onodes_limit_zero wtree (wkey 0) (wkey 9) (wkey 1) wval
    [(wkey 2, wval), (wkey 3, wval), (wkey 4, wval), (wkey 5, wval)]
    (by decide) (by decide) (by decide)

/-- C4: the output of `list_onodes` is a subsequence of the tree's
identifiers in ascending tree order starting from the lower bound of
`start`, with at most `limit` identifiers, and the call never mutates the
tree (its embedding returns no tree); in particular, for a tree holding
ascending identifiers `[a, b, c, d, e]` within `[start, end)`, three
successive calls with limit 2 resuming from each returned next-start yield
`([a, b], c)`, `([c, d], e)` and `([e], end)`. -/
theorem list_onodes_pagination (t : OnodeTree) (start endKey : ghobject_t) (lim : Nat)
    (hs : tree_sorted t)
    (a b c d e : ghobject_t) (va vb vc vd ve : onode_layout_t)
    (startX endX : ghobject_t)
    (hab : a < b) (hbc : b < c) (hcd : c < d) (hde : d < e)
    (hsa : startX ≤ a) (heE : e < endX) :
    (list_onodes t start endKey lim).1.length ≤ lim ∧
    List.Sublist (list_onodes t start endKey lim).1 (t.map Prod.fst) ∧
    (list_onodes t start endKey lim).1.Pairwise (· < ·) ∧
    list_onodes [(a, va), (b, vb), (c, vc), (d, vd), (e, ve)] startX endX 2 = ([a, b], c) ∧
    list_onodes [(a, va), (b, vb), (c, vc), (d, vd), (e, ve)] c endX 2 = ([c, d], e) ∧
    list_onodes [(a, va), (b, vb), (c, vc), (d, vd), (e, ve)] e endX 2 = ([e], endX) := by
  have hl := list_loop_eq endKey (tree_lower_bound t start) lim
  have h1 : (list_onodes t start endKey lim).1 =
      (scan_keys (tree_lower_bound t start) endKey).take lim := by
    rw [list_onodes, hl]
  have hsub : List.Sublist (list_onodes t start endKey lim).1 (t.map Prod.fst) := by
    rw [h1]
    have s1 : List.Sublist ((scan_keys (tree_lower_bound t start) endKey).take lim)
        (scan_keys (tree_lower_bound t start) endKey) := List.take_sublist _ _
    have s2 : List.Sublist (scan_keys (tree_lower_bound t start) endKey)
        ((tree_lower_bound t start).map Prod.fst) := by
      rw [scan_keys]
      exact List.takeWhile_sublist _
    have s3 : List.Sublist ((tree_lower_bound t start).map Prod.fst) (t.map Prod.fst) := by
      rw [tree_lower_bound]
      exact List.Sublist.map _ (List.dropWhile_sublist _)
    exact (s1.trans s2).trans s3
  have hac := hab.trans hbc
  have had := hac.trans hcd
  have hae := had.trans hde
  have hbd := hbc.trans hcd
  have hbe := hbd.trans hde
  have hce := hcd.trans hde
  have haE := hae.trans heE
  have hbE := hbe.trans heE
  have hcE := hce.trans heE
  have hdE := hde.trans heE
  have hsEx : tree_sorted [(a, va), (b, vb), (c, vc), (d, vd), (e, ve)] := by
    simp [tree_sorted]
    exact ⟨⟨hab, hac, had, hae⟩, ⟨hbc, hbd, hbe⟩, ⟨hcd, hce⟩, hde⟩
  have hnsa : ¬ a < startX := not_lt.2 hsa
  have hlb1 : tree_lower_bound [(a, va), (b, vb), (c, vc), (d, vd), (e, ve)] startX =
      [(a, va), (b, vb), (c, vc), (d, vd), (e, ve)] := by
    rw [tree_lower_bound, List.dropWhile_cons]
    simp [hnsa]
  have hcall1 : list_onodes [(a, va), (b, vb), (c, vc), (d, vd), (e, ve)] startX endX 2
      = ([a, b], c) := by
    rw [list_onodes, hlb1, list_loop_eq]
    have hscan : scan_keys [(a, va), (b, vb), (c, vc), (d, vd), (e, ve)] endX
        = [a, b, c, d, e] := by
      simp [scan_keys, List.takeWhile_cons, haE, hbE, hcE, hdE, heE]
    rw [hscan]
    rfl
  have hlb2 : tree_lower_bound [(a, va), (b, vb), (c, vc), (d, vd), (e, ve)] c =
      [(c, vc), (d, vd), (e, ve)] := by
    have := tree_lower_bound_split [(a, va), (b, vb)] [(d, vd), (e, ve)] c vc
      (by simpa using hsEx)
    simpa using this
  have hcall2 : list_onodes [(a, va), (b, vb), (c, vc), (d, vd), (e, ve)] c endX 2
      = ([c, d], e) := by
    rw [list_onodes, hlb2, list_loop_eq]
    have hscan : scan_keys [(c, vc), (d, vd), (e, ve)] endX = [c, d, e] := by
      simp [scan_keys, List.takeWhile_cons, hcE, hdE, heE]
    rw [hscan]
    rfl
  have hlb3 : tree_lower_bound [(a, va), (b, vb), (c, vc), (d, vd), (e, ve)] e =
      [(e, ve)] := by
    have := tree_lower_bound_split [(a, va), (b, vb), (c, vc), (d, vd)] [] e ve
      (by simpa using hsEx)
    simpa using this
  have hcall3 : list_onodes [(a, va), (b, vb), (c, vc), (d, vd), (e, ve)] e endX 2
      = ([e], endX) := by
    rw [list_onodes, hlb3, list_loop_eq]
    have hscan : scan_keys [(e, ve)] endX = [e] := by
      simp [scan_keys, List.takeWhile_cons, heE]
    rw [hscan]
    rfl
  refine ⟨?_, hsub, ?_, hcall1, hcall2, hcall3⟩
  · rw [h1, List.length_take]
    exact Nat.min_le_left _ _
  · exact List.Pairwise.sublist hsub hs

/-- Witness for C4: the pagination contract instantiated on the concrete
five-entry tree: three successive limit-2 calls return `([1,2],3)`,
`([3,4],5)` and `([5], 9)`. -/
theorem list_onodes_pagination_witness :
    (list_onodes wtree (wkey 0) (wkey 9) 2).1.length ≤ 2 ∧
    List.Sublist (list_onodes wtree (wkey 0) (wkey 9) 2).1 (wtree.map Prod.fst) ∧
    (list_onodes wtree (wkey 0) (wkey 9) 2).1.Pairwise (· < ·) ∧
    list_onodes [(wkey 1, wval), (wkey 2, wval), (wkey 3, wval), (wkey 4, wval),
      (wkey 5, wval)] (wkey 0) (wkey 9) 2 = ([wkey 1, wkey 2], wkey 3) ∧
    list_onodes [(wkey 1, wval), (wkey 2, wval), (wkey 3, wval), (wkey 4, wval),
      (wkey 5, wval)] (wkey 3) (wkey 9) 2 = ([wkey 3, wkey 4], wkey 5) ∧
    list_onodes [(wkey 1, wval), (wkey 2, wval), (wkey 3, wval), (wkey 4, wval),
      (wkey 5, wval)] (wkey 5) (wkey 9) 2 = ([wkey 5], wkey 9) :=
  list_onodes_pagination wtree (wkey 0) (wkey 9) 2 (by decide)
    (wkey 1) (wkey 2) (wkey 3) (wkey 4) (wkey 5) wval wval wval wval wval
    (wkey 0) (wkey 9) (by decide) (by decide) (by decide) (by decide) (by decide) (by decide)
